import Mathlib

/-!
Shallow embedding of the reconciliation planner of `external-dns`
(`plan/plan.go`) together with the endpoint-filter predicates described by
the specification (the filter implementation itself is exercised only by the
tests in `source/filter_source_test.go`).

Go pointers to `endpoint.Endpoint` are modelled by `Endpoint` values; the
in-place mutation that `Calculate` performs on matched desired records is
modelled by returning the post-state of the desired list as the `Desired`
field of the resulting `Plan` (in Go this field aliases the input slice, so
the mutated objects are visible through it and through every other retained
reference).
-/

/-- Labels of a record: the `map[string]string` of the endpoint, modelled as
an association list (first binding of a key wins). -/
abbrev Labels := List (String × String)

/-- Modelled from the spec: the `endpoint.TTL` type is not under `src/`.
The spec describes `ttl` as an optional integer with a sentinel
"unconfigured" state; `none` is the sentinel. -/
abbrev TTL := Option Int

/-- Modelled from the spec: `TTL.IsConfigured` (endpoint package, not under
`src/`) — a TTL is configured exactly when it is not the sentinel. -/
def TTL.IsConfigured (t : TTL) : Bool := t.isSome

/-- Modelled from the spec: `Endpoint.MergeLabels` (endpoint package, not
under `src/`). The desired record keeps its own label entries and inherits
every label of the current record whose key it does not already bind. -/
def mergeLabels (dst other : Labels) : Labels :=
  dst ++ other.filter (fun kv => (dst.lookup kv.1).isNone)

/-- `endpoint.Endpoint`: one DNS record (name, target, type, TTL, labels). -/
structure Endpoint where
  DNSName : String
  Target : String
  RecordType : String
  RecordTTL : TTL
  Labels : Labels
  deriving DecidableEq

/-- `plan.Changes`: the four action lists of a computed change set. -/
structure Changes where
  Create : List Endpoint
  UpdateOld : List Endpoint
  UpdateNew : List Endpoint
  Delete : List Endpoint
  deriving DecidableEq

/-- `plan.Policy`: a transform of a change set (`Apply`). -/
abbrev Policy := Changes → Changes

/-- `plan.Plan`: desired and current records, the policies, and the change
set populated by `Calculate` (`none` plays the role of Go's nil pointer). -/
structure Plan where
  Current : List Endpoint
  Desired : List Endpoint
  Policies : List Policy
  Changes : Option Changes

/-- `recordExists` (plan.go): linear scan returning the first record of the
haystack whose `DNSName` equals the needle's; `none` when there is none. -/
def recordExists (needle : Endpoint) (haystack : List Endpoint) : Option Endpoint :=
  match haystack with
  | [] => none
  | r :: rest => if r.DNSName == needle.DNSName then some r else recordExists needle rest

/-- `targetChanged` (plan.go). -/
def targetChanged (desired current : Endpoint) : Bool :=
  desired.Target != current.Target

/-- `shouldUpdateTTL` (plan.go): false when the desired TTL is unconfigured,
else whether the TTLs differ. -/
def shouldUpdateTTL (desired current : Endpoint) : Bool :=
  if !(TTL.IsConfigured desired.RecordTTL) then false
  else desired.RecordTTL != current.RecordTTL

/-- The body of the update branch of `Calculate` (plan.go lines 79-90): merge
the current record's labels into the desired record, inherit the record type
when the target changed, and keep the current TTL when the TTL should not be
updated.  In Go these are in-place mutations of the desired record. -/
def updateMerge (desired current : Endpoint) : Endpoint :=
  let d1 : Endpoint := { desired with Labels := mergeLabels desired.Labels current.Labels }
  let d2 : Endpoint := if targetChanged desired current then { d1 with RecordType := current.RecordType } else d1
  if !(shouldUpdateTTL desired current) then { d2 with RecordTTL := current.RecordTTL } else d2

/-- The first loop of `Calculate` (plan.go lines 58-91): walk the desired
records, appending to `Create`, `UpdateOld` and `UpdateNew`.  The second
component is the post-state of the desired records (each one either
untouched or mutated by the update branch). -/
def desiredLoop (current : List Endpoint) : List Endpoint → Changes × List Endpoint
  | [] => (⟨[], [], [], []⟩, [])
  | d :: rest =>
    let r := desiredLoop current rest
    match recordExists d current with
    | none => ({ r.1 with Create := d :: r.1.Create }, d :: r.2)
    | some c =>
      if !(targetChanged d c) && !(shouldUpdateTTL d c) then (r.1, d :: r.2)
      else ({ r.1 with UpdateOld := c :: r.1.UpdateOld,
                       UpdateNew := updateMerge d c :: r.1.UpdateNew },
            updateMerge d c :: r.2)

/-- The second loop of `Calculate` (plan.go lines 95-99): every current
record without a name match among the (possibly mutated) desired records is
appended to `Delete`. -/
def deleteLoop (desiredAfter : List Endpoint) : List Endpoint → List Endpoint
  | [] => []
  | c :: rest =>
    match recordExists c desiredAfter with
    | some _ => deleteLoop desiredAfter rest
    | none => c :: deleteLoop desiredAfter rest

/-- The policy loop of `Calculate` (plan.go lines 101-104): left fold of the
policies over the change set. -/
def applyPolicies (policies : List Policy) (changes : Changes) : Changes :=
  policies.foldl (fun cs pol => pol cs) changes

/-- `Plan.Calculate` (plan.go lines 53-113). -/
def Plan.Calculate (p : Plan) : Plan :=
  let r := desiredLoop p.Current p.Desired
  let del := deleteLoop r.2 p.Current
  let changes := applyPolicies p.Policies { r.1 with Delete := del }
  { Current := p.Current, Desired := r.2, Policies := [], Changes := some changes }

/-- Combined change condition of the update branch. -/
def updateCond (d c : Endpoint) : Bool := targetChanged d c || shouldUpdateTTL d c

/-- Per-record effect of the first loop on the desired record itself. -/
def matchStep (current : List Endpoint) (d : Endpoint) : Endpoint :=
  match recordExists d current with
  | none => d
  | some c => if !(targetChanged d c) && !(shouldUpdateTTL d c) then d else updateMerge d c

/-- Per-record contribution of the first loop to `UpdateOld`. -/
def updOldOf (current : List Endpoint) (d : Endpoint) : Option Endpoint :=
  match recordExists d current with
  | none => none
  | some c => if !(targetChanged d c) && !(shouldUpdateTTL d c) then none else some c

/-- Per-record contribution of the first loop to `UpdateNew`. -/
def updNewOf (current : List Endpoint) (d : Endpoint) : Option Endpoint :=
  match recordExists d current with
  | none => none
  | some c => if !(targetChanged d c) && !(shouldUpdateTTL d c) then none
              else some (updateMerge d c)

theorem desiredLoop_create (current ds : List Endpoint) :
    (desiredLoop current ds).1.Create = ds.filter (fun d => (recordExists d current).isNone) := by
  induction ds with
  | nil => rfl
  | cons d rest ih =>
    simp only [desiredLoop, List.filter]
    cases h : recordExists d current with
    | none => simp [h, ih]
    | some c =>
      by_cases hc : (!(targetChanged d c) && !(shouldUpdateTTL d c)) = true
      · simp [h, hc, ih]
      · simp [h, Bool.of_not_eq_true hc, ih]

theorem desiredLoop_updateOld (current ds : List Endpoint) :
    (desiredLoop current ds).1.UpdateOld = ds.filterMap (updOldOf current) := by
  induction ds with
  | nil => rfl
  | cons d rest ih =>
    simp only [desiredLoop, List.filterMap]
    cases h : recordExists d current with
    | none => simp [updOldOf, h, ih]
    | some c =>
      by_cases hc : (!(targetChanged d c) && !(shouldUpdateTTL d c)) = true
      · simp [updOldOf, h, hc, ih]
      · simp [updOldOf, h, Bool.of_not_eq_true hc, ih]

theorem desiredLoop_updateNew (current ds : List Endpoint) :
    (desiredLoop current ds).1.UpdateNew = ds.filterMap (updNewOf current) := by
  induction ds with
  | nil => rfl
  | cons d rest ih =>
    simp only [desiredLoop, List.filterMap]
    cases h : recordExists d current with
    | none => simp [updNewOf, h, ih]
    | some c =>
      by_cases hc : (!(targetChanged d c) && !(shouldUpdateTTL d c)) = true
      · simp [updNewOf, h, hc, ih]
      · simp [updNewOf, h, Bool.of_not_eq_true hc, ih]

theorem desiredLoop_delete (current ds : List Endpoint) :
    (desiredLoop current ds).1.Delete = [] := by
  induction ds with
  | nil => rfl
  | cons d rest ih =>
    simp only [desiredLoop]
    cases h : recordExists d current with
    | none => simpa [h] using ih
    | some c =>
      by_cases hc : (!(targetChanged d c) && !(shouldUpdateTTL d c)) = true
      · simpa [h, hc] using ih
      · simpa [h, Bool.of_not_eq_true hc] using ih

theorem desiredLoop_after (current ds : List Endpoint) :
    (desiredLoop current ds).2 = ds.map (matchStep current) := by
  induction ds with
  | nil => rfl
  | cons d rest ih =>
    simp only [desiredLoop, List.map]
    cases h : recordExists d current with
    | none => simp [matchStep, h, ih]
    | some c =>
      by_cases hc : (!(targetChanged d c) && !(shouldUpdateTTL d c)) = true
      · simp [matchStep, h, hc, ih]
      · simp [matchStep, h, Bool.of_not_eq_true hc, ih]

theorem deleteLoop_eq_filter (da cs : List Endpoint) :
    deleteLoop da cs = cs.filter (fun c => (recordExists c da).isNone) := by
  induction cs with
  | nil => rfl
  | cons c rest ih =>
    simp only [deleteLoop, List.filter]
    cases h : recordExists c da with
    | none => simp [h, ih]
    | some x => simp [h, ih]

theorem recordExists_eq_none_iff (needle : Endpoint) (hay : List Endpoint) :
    recordExists needle hay = none ↔ ∀ r ∈ hay, r.DNSName ≠ needle.DNSName := by
  induction hay with
  | nil => simp [recordExists]
  | cons r rest ih =>
    simp only [recordExists]
    by_cases h : r.DNSName = needle.DNSName
    · simp [h]
    · simp only [List.mem_cons]
      constructor
      · intro hr x hx
        rcases hx with hx | hx
        · subst hx; exact h
        · have : recordExists needle rest = none := by
            simpa [h] using hr
          exact (ih.mp this) x hx
      · intro hall
        have : recordExists needle rest = none := ih.mpr (fun x hx => hall x (Or.inr hx))
        simpa [h] using this

theorem recordExists_eq_some (needle c : Endpoint) (hay : List Endpoint)
    (h : recordExists needle hay = some c) : c ∈ hay ∧ c.DNSName = needle.DNSName := by
  induction hay with
  | nil => simp [recordExists] at h
  | cons r rest ih =>
    simp only [recordExists] at h
    by_cases hr : r.DNSName = needle.DNSName
    · simp [hr] at h
      subst h
      exact ⟨List.mem_cons_self _ _, hr⟩
    · have h' : recordExists needle rest = some c := by simpa [hr] using h
      rcases ih h' with ⟨hmem, hname⟩
      exact ⟨List.mem_cons_of_mem _ hmem, hname⟩

theorem recordExists_name_invariant (needle needle' : Endpoint) (hay : List Endpoint)
    (h : needle.DNSName = needle'.DNSName) :
    recordExists needle hay = recordExists needle' hay := by
  induction hay with
  | nil => rfl
  | cons r rest ih => simp only [recordExists, h, ih]

theorem recordExists_first (needle r : Endpoint) (pre post : List Endpoint)
    (hr : r.DNSName = needle.DNSName)
    (hpre : ∀ x ∈ pre, x.DNSName ≠ needle.DNSName) :
    recordExists needle (pre ++ r :: post) = some r := by
  induction pre with
  | nil => simp [recordExists, hr]
  | cons x rest ih =>
    have hx : x.DNSName ≠ needle.DNSName := hpre x (List.mem_cons_self _ _)
    simp only [List.cons_append, recordExists, hx]
    simp only [beq_iff_eq, hx, if_false]
    exact ih (fun y hy => hpre y (List.mem_cons_of_mem _ hy))

theorem recordExists_nodup (needle c : Endpoint) (hay : List Endpoint)
    (hnd : (hay.map Endpoint.DNSName).Nodup)
    (hc : c ∈ hay) (hname : c.DNSName = needle.DNSName) :
    recordExists needle hay = some c := by
  induction hay with
  | nil => simp at hc
  | cons r rest ih =>
    rcases List.mem_cons.mp hc with hcr | hcr
    · subst hcr
      simp [recordExists, hname]
    · have hr : r.DNSName ≠ needle.DNSName := by
        intro hEq
        have : c.DNSName ∈ rest.map Endpoint.DNSName := List.mem_map_of_mem _ hcr
        have hnot : r.DNSName ∉ rest.map Endpoint.DNSName :=
          (List.nodup_cons.mp (by simpa using hnd)).1
        rw [hEq, ← hname] at hnot
        exact hnot this
      have hrest : (rest.map Endpoint.DNSName).Nodup :=
        (List.nodup_cons.mp (by simpa using hnd)).2
      simp only [recordExists, beq_iff_eq, hr, if_false]
      exact ih hrest hcr

theorem recordExists_isSome_of_mem (needle c : Endpoint) (hay : List Endpoint)
    (hc : c ∈ hay) (hname : c.DNSName = needle.DNSName) :
    (recordExists needle hay).isSome = true := by
  cases h : recordExists needle hay with
  | some x => rfl
  | none =>
    exact absurd hname ((recordExists_eq_none_iff needle hay).mp h c hc)

theorem updateMerge_DNSName (d c : Endpoint) : (updateMerge d c).DNSName = d.DNSName := by
  unfold updateMerge
  by_cases h1 : targetChanged d c = true <;>
    by_cases h2 : shouldUpdateTTL d c = true <;>
      simp [h1, h2]

theorem matchStep_DNSName (current : List Endpoint) (d : Endpoint) :
    (matchStep current d).DNSName = d.DNSName := by
  unfold matchStep
  cases h : recordExists d current with
  | none => rfl
  | some c =>
    by_cases hc : (!(targetChanged d c) && !(shouldUpdateTTL d c)) = true
    · simp [hc]
    · simp [Bool.of_not_eq_true hc, updateMerge_DNSName]

theorem desiredAfter_names (current ds : List Endpoint) :
    ((desiredLoop current ds).2.map Endpoint.DNSName) = ds.map Endpoint.DNSName := by
  rw [desiredLoop_after]
  rw [List.map_map]
  apply List.map_congr_left
  intro d _
  exact matchStep_DNSName current d

theorem countP_filterMap_eq {α β : Type} (f : α → Option β) (p : β → Bool) (l : List α) :
    (l.filterMap f).countP p = l.countP (fun a => (f a).elim false p) := by
  induction l with
  | nil => rfl
  | cons a rest ih =>
    cases h : f a with
    | none => simp [List.filterMap_cons, h, List.countP_cons, ih]
    | some b => simp [List.filterMap_cons, h, List.countP_cons, ih]

theorem count_filter_of_pos {α : Type} [DecidableEq α] (p : α → Bool) (l : List α) (a : α)
    (h : p a = true) : (l.filter p).count a = l.count a := by
  induction l with
  | nil => rfl
  | cons x rest ih =>
    by_cases hx : p x = true
    · by_cases hxa : x = a
      · subst hxa
        simp [List.filter_cons, hx, List.count_cons, ih]
      · simp [List.filter_cons, hx, List.count_cons, ih, hxa]
    · have hxa : ¬(x = a) := by
        intro e
        rw [e] at hx
        exact hx h
      simp [List.filter_cons, hx, List.count_cons, ih, hxa]

theorem map_key_nodup_inj {α : Type} (key : α → String) (l : List α)
    (hnd : (l.map key).Nodup) (a b : α) (ha : a ∈ l) (hb : b ∈ l)
    (hk : key a = key b) : a = b := by
  induction l with
  | nil => simp at ha
  | cons x rest ih =>
    rw [List.map_cons, List.nodup_cons] at hnd
    have hpair := hnd
    rcases List.mem_cons.mp ha with hax | hax <;> rcases List.mem_cons.mp hb with hbx | hbx
    · rw [hax, hbx]
    · exfalso
      subst hax
      exact hpair.1 (hk ▸ List.mem_map_of_mem key hbx)
    · exfalso
      subst hbx
      exact hpair.1 (hk ▸ List.mem_map_of_mem key hax)
    · exact ih hpair.2 hax hbx

theorem countP_key_unique {α : Type} (key : α → String) (l : List α) (a : α) (P : α → Bool)
    (hnd : (l.map key).Nodup) (ha : a ∈ l) (hP : ∀ x, P x = true → key x = key a) :
    l.countP P = if P a then 1 else 0 := by
  induction l with
  | nil => simp at ha
  | cons x rest ih =>
    rw [List.map_cons, List.nodup_cons] at hnd
    have hpair := hnd
    rcases List.mem_cons.mp ha with hax | hax
    · subst hax
      have hrest : rest.countP P = 0 := by
        rw [List.countP_eq_zero]
        intro y hy hPy
        exact hpair.1 ((hP y hPy) ▸ List.mem_map_of_mem key hy)
      rw [List.countP_cons, hrest]
      by_cases hPa : P a = true
      · simp [hPa]
      · simp [Bool.of_not_eq_true hPa]
    · have hPx : P x = false := by
        by_cases hb : P x = true
        · exfalso
          exact hpair.1 ((hP x hb) ▸ List.mem_map_of_mem key hax)
        · exact Bool.of_not_eq_true hb
      rw [List.countP_cons, hPx]
      simp [ih hpair.2 hax]

theorem create_names_spec (cur des : List Endpoint) (n : String)
    (h : n ∈ (((desiredLoop cur des).1.Create).map Endpoint.DNSName)) :
    (∃ d ∈ des, d.DNSName = n) ∧ ∀ r ∈ cur, r.DNSName ≠ n := by
  rw [desiredLoop_create] at h
  rcases List.mem_map.mp h with ⟨d, hd, hdn⟩
  rcases List.mem_filter.mp hd with ⟨hdes, hnone⟩
  have hnone' : recordExists d cur = none := by
    cases hre : recordExists d cur with
    | none => rfl
    | some c => rw [hre] at hnone; simp at hnone
  refine ⟨⟨d, hdes, hdn⟩, ?_⟩
  intro r hr
  rw [← hdn]
  exact (recordExists_eq_none_iff d cur).mp hnone' r hr

theorem updateOld_names_spec (cur des : List Endpoint) (n : String)
    (h : n ∈ (((desiredLoop cur des).1.UpdateOld).map Endpoint.DNSName)) :
    (∃ d ∈ des, d.DNSName = n) ∧ (∃ r ∈ cur, r.DNSName = n) := by
  rw [desiredLoop_updateOld] at h
  rcases List.mem_map.mp h with ⟨x, hx, hxn⟩
  rcases List.mem_filterMap.mp hx with ⟨d, hd, hfd⟩
  unfold updOldOf at hfd
  split at hfd
  · exact absurd hfd (by simp)
  · rename_i c hre
    split at hfd
    · exact absurd hfd (by simp)
    · have hxc : c = x := by simpa using hfd
      subst hxc
      rcases recordExists_eq_some d c cur hre with ⟨hcm, hcn⟩
      exact ⟨⟨d, hd, by rw [← hcn]; exact hxn⟩, ⟨c, hcm, hxn⟩⟩

theorem updateNew_names_spec (cur des : List Endpoint) (n : String)
    (h : n ∈ (((desiredLoop cur des).1.UpdateNew).map Endpoint.DNSName)) :
    (∃ d ∈ des, d.DNSName = n) ∧ (∃ r ∈ cur, r.DNSName = n) := by
  rw [desiredLoop_updateNew] at h
  rcases List.mem_map.mp h with ⟨x, hx, hxn⟩
  rcases List.mem_filterMap.mp hx with ⟨d, hd, hfd⟩
  unfold updNewOf at hfd
  split at hfd
  · exact absurd hfd (by simp)
  · rename_i c hre
    split at hfd
    · exact absurd hfd (by simp)
    · have hxc : updateMerge d c = x := by simpa using hfd
      rcases recordExists_eq_some d c cur hre with ⟨hcm, hcn⟩
      have hdn : d.DNSName = n := by
        rw [← hxn, ← hxc, updateMerge_DNSName]
      exact ⟨⟨d, hd, hdn⟩, ⟨c, hcm, by rw [hcn]; exact hdn⟩⟩

theorem delete_names_spec (cur des : List Endpoint) (n : String)
    (h : n ∈ ((deleteLoop (desiredLoop cur des).2 cur).map Endpoint.DNSName)) :
    (∃ r ∈ cur, r.DNSName = n) ∧ ∀ d ∈ des, d.DNSName ≠ n := by
  rw [deleteLoop_eq_filter] at h
  rcases List.mem_map.mp h with ⟨x, hx, hxn⟩
  rcases List.mem_filter.mp hx with ⟨hmem, hnone⟩
  have hnone' : recordExists x (desiredLoop cur des).2 = none := by
    cases hre : recordExists x (desiredLoop cur des).2 with
    | none => rfl
    | some c => rw [hre] at hnone; simp at hnone
  have hall := (recordExists_eq_none_iff x _).mp hnone'
  refine ⟨⟨x, hmem, hxn⟩, ?_⟩
  intro d hd hdn
  have hmem' : matchStep cur d ∈ (desiredLoop cur des).2 := by
    rw [desiredLoop_after]
    exact List.mem_map_of_mem _ hd
  exact hall _ hmem' (by rw [matchStep_DNSName, hdn, hxn])

/-- C1: with no policies, every record whose name appears only in `current`
is listed exactly once in `Delete` (a Go pointer corresponds in the value
model to a record occurring exactly once in its input list), every record
whose name appears only in `desired` is listed exactly once in `Create`, and
the name sets of `Create`, `Delete`, and `UpdateOld`/`UpdateNew` are
pairwise disjoint. -/
theorem plan_partition (cur des : List Endpoint) (cs : Changes)
    (hcs : (Plan.Calculate ⟨cur, des, [], none⟩).Changes = some cs) :
    (∀ c : Endpoint, c ∈ cur → cur.count c = 1 →
       (∀ d ∈ des, d.DNSName ≠ c.DNSName) → cs.Delete.count c = 1)
    ∧ (∀ d : Endpoint, d ∈ des → des.count d = 1 →
       (∀ c ∈ cur, c.DNSName ≠ d.DNSName) → cs.Create.count d = 1)
    ∧ (∀ n : String, n ∈ cs.Create.map Endpoint.DNSName →
         n ∉ cs.Delete.map Endpoint.DNSName)
    ∧ (∀ n : String, n ∈ cs.Create.map Endpoint.DNSName →
         n ∉ cs.UpdateOld.map Endpoint.DNSName ∧ n ∉ cs.UpdateNew.map Endpoint.DNSName)
    ∧ (∀ n : String, n ∈ cs.Delete.map Endpoint.DNSName →
         n ∉ cs.UpdateOld.map Endpoint.DNSName ∧ n ∉ cs.UpdateNew.map Endpoint.DNSName) := by
  have hcal : (Plan.Calculate ⟨cur, des, [], none⟩).Changes
      = some { (desiredLoop cur des).1 with
               Delete := deleteLoop (desiredLoop cur des).2 cur } := rfl
  rw [hcal] at hcs
  have hcseq := (Option.some_inj.mp hcs).symm
  subst hcseq
  refine ⟨?_, ?_, ?_, ?_, ?_⟩
  · intro c hc hcount hnames
    show (deleteLoop (desiredLoop cur des).2 cur).count c = 1
    rw [deleteLoop_eq_filter]
    have hp : (recordExists c (desiredLoop cur des).2).isNone = true := by
      have hnone : recordExists c (desiredLoop cur des).2 = none := by
        rw [recordExists_eq_none_iff]
        intro r hr
        rw [desiredLoop_after] at hr
        rcases List.mem_map.mp hr with ⟨d, hd, hde⟩
        rw [← hde, matchStep_DNSName]
        exact hnames d hd
      rw [hnone]
      rfl
    rw [count_filter_of_pos
          (fun z => (recordExists z (desiredLoop cur des).2).isNone) cur c hp]
    exact hcount
  · intro d hd hcount hnames
    show ((desiredLoop cur des).1.Create).count d = 1
    rw [desiredLoop_create]
    have hp : (recordExists d cur).isNone = true := by
      have hnone : recordExists d cur = none := by
        rw [recordExists_eq_none_iff]
        intro r hr
        exact hnames r hr
      rw [hnone]
      rfl
    rw [count_filter_of_pos (fun z => (recordExists z cur).isNone) des d hp]
    exact hcount
  · intro n hcreate hdelete
    have h1 := create_names_spec cur des n hcreate
    have h2 := delete_names_spec cur des n hdelete
    rcases h2.1 with ⟨r, hr, hrn⟩
    exact h1.2 r hr hrn
  · intro n hcreate
    have h1 := create_names_spec cur des n hcreate
    constructor
    · intro hold
      rcases (updateOld_names_spec cur des n hold).2 with ⟨r, hr, hrn⟩
      exact h1.2 r hr hrn
    · intro hnew
      rcases (updateNew_names_spec cur des n hnew).2 with ⟨r, hr, hrn⟩
      exact h1.2 r hr hrn
  · intro n hdelete
    have h2 := delete_names_spec cur des n hdelete
    constructor
    · intro hold
      rcases (updateOld_names_spec cur des n hold).1 with ⟨d, hd, hdn⟩
      exact h2.2 d hd hdn
    · intro hnew
      rcases (updateNew_names_spec cur des n hnew).1 with ⟨d, hd, hdn⟩
      exact h2.2 d hd hdn

theorem skipCond_eq (d c : Endpoint) :
    (!(targetChanged d c) && !(shouldUpdateTTL d c)) = !(updateCond d c) := by
  unfold updateCond
  cases targetChanged d c <;> cases shouldUpdateTTL d c <;> rfl

theorem updateCond_iff (d c : Endpoint) :
    updateCond d c = true ↔
      (d.Target ≠ c.Target
        ∨ (TTL.IsConfigured d.RecordTTL = true ∧ d.RecordTTL ≠ c.RecordTTL)) := by
  unfold updateCond targetChanged shouldUpdateTTL
  by_cases ht : TTL.IsConfigured d.RecordTTL = true
  · simp [ht, bne_iff_ne]
  · have ht' := Bool.of_not_eq_true ht
    simp [ht', bne_iff_ne]

theorem updNewOf_name (cur : List Endpoint) (x b : Endpoint)
    (h : updNewOf cur x = some b) : b.DNSName = x.DNSName := by
  unfold updNewOf at h
  split at h
  · exact absurd h (by simp)
  · rename_i c' hre'
    split at h
    · exact absurd h (by simp)
    · have hxb : updateMerge x c' = b := by simpa using h
      rw [← hxb, updateMerge_DNSName]

theorem updOldOf_name (cur : List Endpoint) (x b : Endpoint)
    (h : updOldOf cur x = some b) : b.DNSName = x.DNSName := by
  unfold updOldOf at h
  split at h
  · exact absurd h (by simp)
  · rename_i c' hre'
    split at h
    · exact absurd h (by simp)
    · have hxb : c' = b := by simpa using h
      rw [← hxb]
      exact (recordExists_eq_some x c' cur hre').2

theorem updNewOf_eval (cur : List Endpoint) (d c : Endpoint)
    (hre : recordExists d cur = some c) :
    updNewOf cur d = if updateCond d c then some (updateMerge d c) else none := by
  unfold updNewOf
  simp only [hre, skipCond_eq]
  cases updateCond d c <;> simp

theorem updOldOf_eval (cur : List Endpoint) (d c : Endpoint)
    (hre : recordExists d cur = some c) :
    updOldOf cur d = if updateCond d c then some c else none := by
  unfold updOldOf
  simp only [hre, skipCond_eq]
  cases updateCond d c <;> simp

theorem updateNew_countP (cur des : List Endpoint) (d c : Endpoint)
    (hnd : (des.map Endpoint.DNSName).Nodup) (hnc : (cur.map Endpoint.DNSName).Nodup)
    (hd : d ∈ des) (hc : c ∈ cur) (hn : d.DNSName = c.DNSName) :
    ((desiredLoop cur des).1.UpdateNew).countP (fun e => e.DNSName == d.DNSName)
      = if updateCond d c then 1 else 0 := by
  rw [desiredLoop_updateNew, countP_filterMap_eq]
  have hre : recordExists d cur = some c := recordExists_nodup d c cur hnc hc hn.symm
  have hQ : ∀ x : Endpoint,
      ((updNewOf cur x).elim false (fun e => e.DNSName == d.DNSName)) = true →
        x.DNSName = d.DNSName := by
    intro x hx
    cases hux : updNewOf cur x with
    | none => rw [hux] at hx; simp at hx
    | some b =>
      rw [hux] at hx
      have hb : b.DNSName = d.DNSName := by simpa using hx
      rw [← updNewOf_name cur x b hux]
      exact hb
  have hkey := countP_key_unique Endpoint.DNSName des d
      (fun x => (updNewOf cur x).elim false (fun e => e.DNSName == d.DNSName)) hnd hd hQ
  rw [hkey]
  have hQd : ((updNewOf cur d).elim false (fun e => e.DNSName == d.DNSName))
      = updateCond d c := by
    rw [updNewOf_eval cur d c hre]
    cases updateCond d c
    · simp
    · simp [updateMerge_DNSName]
  simp only [hQd]

theorem updateOld_countP (cur des : List Endpoint) (d c : Endpoint)
    (hnd : (des.map Endpoint.DNSName).Nodup) (hnc : (cur.map Endpoint.DNSName).Nodup)
    (hd : d ∈ des) (hc : c ∈ cur) (hn : d.DNSName = c.DNSName) :
    ((desiredLoop cur des).1.UpdateOld).countP (fun e => e.DNSName == d.DNSName)
      = if updateCond d c then 1 else 0 := by
  rw [desiredLoop_updateOld, countP_filterMap_eq]
  have hre : recordExists d cur = some c := recordExists_nodup d c cur hnc hc hn.symm
  have hQ : ∀ x : Endpoint,
      ((updOldOf cur x).elim false (fun e => e.DNSName == d.DNSName)) = true →
        x.DNSName = d.DNSName := by
    intro x hx
    cases hux : updOldOf cur x with
    | none => rw [hux] at hx; simp at hx
    | some b =>
      rw [hux] at hx
      have hb : b.DNSName = d.DNSName := by simpa using hx
      rw [← updOldOf_name cur x b hux]
      exact hb
  have hkey := countP_key_unique Endpoint.DNSName des d
      (fun x => (updOldOf cur x).elim false (fun e => e.DNSName == d.DNSName)) hnd hd hQ
  rw [hkey]
  have hQd : ((updOldOf cur d).elim false (fun e => e.DNSName == d.DNSName))
      = updateCond d c := by
    rw [updOldOf_eval cur d c hre]
    cases updateCond d c
    · simp
    · simp [← hn]
  simp only [hQd]

/-- The change set `Calculate` computes for the given current and desired
lists when no policies are configured (glue for concrete instantiations). -/
def changesOf (cur des : List Endpoint) : Changes :=
  match (Plan.Calculate ⟨cur, des, [], none⟩).Changes with
  | some cs => cs
  | none => ⟨[], [], [], []⟩

/-- C2: for a desired record `d` and current record `c` with the same name
(and per-name uniqueness in both lists, as the spec's match-key invariant
assumes), the change set has exactly one `UpdateOld` entry and exactly one
`UpdateNew` entry with that name iff the target differs or the desired TTL
is configured and differs; and if the target is identical and the desired
TTL is unconfigured or equal, no entry with that name appears in any of the
four lists. -/
theorem plan_update_correct (cur des : List Endpoint) (d c : Endpoint) (cs : Changes)
    (hnd : (des.map Endpoint.DNSName).Nodup) (hnc : (cur.map Endpoint.DNSName).Nodup)
    (hd : d ∈ des) (hc : c ∈ cur) (hn : d.DNSName = c.DNSName)
    (hcs : (Plan.Calculate ⟨cur, des, [], none⟩).Changes = some cs) :
    ((cs.UpdateOld.countP (fun e => e.DNSName == d.DNSName) = 1
        ∧ cs.UpdateNew.countP (fun e => e.DNSName == d.DNSName) = 1)
      ↔ (d.Target ≠ c.Target
          ∨ (TTL.IsConfigured d.RecordTTL = true ∧ d.RecordTTL ≠ c.RecordTTL)))
    ∧ ((d.Target = c.Target
          ∧ (TTL.IsConfigured d.RecordTTL = false ∨ d.RecordTTL = c.RecordTTL)) →
        (∀ e ∈ cs.Create, e.DNSName ≠ d.DNSName)
        ∧ (∀ e ∈ cs.UpdateOld, e.DNSName ≠ d.DNSName)
        ∧ (∀ e ∈ cs.UpdateNew, e.DNSName ≠ d.DNSName)
        ∧ (∀ e ∈ cs.Delete, e.DNSName ≠ d.DNSName)) := by
  have hcal : (Plan.Calculate ⟨cur, des, [], none⟩).Changes
      = some { (desiredLoop cur des).1 with
               Delete := deleteLoop (desiredLoop cur des).2 cur } := rfl
  rw [hcal] at hcs
  have hcseq := Option.some_inj.mp hcs
  have hCre : cs.Create = (desiredLoop cur des).1.Create := by rw [← hcseq]
  have hUO : cs.UpdateOld = (desiredLoop cur des).1.UpdateOld := by rw [← hcseq]
  have hUN : cs.UpdateNew = (desiredLoop cur des).1.UpdateNew := by rw [← hcseq]
  have hDel : cs.Delete = deleteLoop (desiredLoop cur des).2 cur := by rw [← hcseq]
  have hOld := updateOld_countP cur des d c hnd hnc hd hc hn
  have hNew := updateNew_countP cur des d c hnd hnc hd hc hn
  constructor
  · constructor
    · rintro ⟨h1, _⟩
      rw [← updateCond_iff]
      by_contra hb
      have hf : updateCond d c = false := Bool.of_not_eq_true hb
      rw [hUO, hOld, hf] at h1
      simp at h1
    · intro hcond
      have ht : updateCond d c = true := (updateCond_iff d c).mpr hcond
      refine ⟨?_, ?_⟩
      · rw [hUO, hOld, ht]
        simp
      · rw [hUN, hNew, ht]
        simp
  · rintro ⟨hteq, httl⟩
    have hf : updateCond d c = false := by
      cases hb : updateCond d c
      · rfl
      · exfalso
        rcases (updateCond_iff d c).mp hb with hT | ⟨hC, hN⟩
        · exact hT hteq
        · rcases httl with hU | hEq
          · rw [hC] at hU
            exact absurd hU (by simp)
          · exact hN hEq
    refine ⟨?_, ?_, ?_, ?_⟩
    · intro e he hen
      have hmm : d.DNSName ∈ cs.Create.map Endpoint.DNSName := by
        rw [← hen]
        exact List.mem_map_of_mem _ he
      rw [hCre] at hmm
      rcases create_names_spec cur des d.DNSName hmm with ⟨_, hall⟩
      exact hall c hc hn.symm
    · intro e he hen
      have h0 : cs.UpdateOld.countP (fun e => e.DNSName == d.DNSName) = 0 := by
        rw [hUO, hOld, hf]
        simp
      have hne := List.countP_eq_zero.mp h0 e he
      simp [hen] at hne
    · intro e he hen
      have h0 : cs.UpdateNew.countP (fun e => e.DNSName == d.DNSName) = 0 := by
        rw [hUN, hNew, hf]
        simp
      have hne := List.countP_eq_zero.mp h0 e he
      simp [hen] at hne
    · intro e he hen
      have hmm : d.DNSName ∈ cs.Delete.map Endpoint.DNSName := by
        rw [← hen]
        exact List.mem_map_of_mem _ he
      rw [hDel] at hmm
      rcases delete_names_spec cur des d.DNSName hmm with ⟨_, hall⟩
      exact hall d hd rfl

/-- A record present only in the sample current list. -/
def epA0 : Endpoint :=
  { DNSName := "a.example.org", Target := "1.2.3.4", RecordType := "A",
    RecordTTL := none, Labels := [] }

/-- A record present only in the sample desired list. -/
def epB0 : Endpoint :=
  { DNSName := "b.example.org", Target := "5.6.7.8", RecordType := "A",
    RecordTTL := none, Labels := [] }

/-- Sample desired record for the update scenario. -/
def epUd : Endpoint :=
  { DNSName := "u.example.org", Target := "1.1.1.1", RecordType := "A",
    RecordTTL := none, Labels := [] }

/-- Sample current record for the update scenario (same name as `epUd`,
different target, carrying an ownership label). -/
def epUc : Endpoint :=
  { DNSName := "u.example.org", Target := "2.2.2.2", RecordType := "A",
    RecordTTL := some 60, Labels := [("owner", "x")] }

/-- Witness for C1. -/
theorem plan_partition_witness :
    (changesOf [epA0] [epB0]).Delete.count epA0 = 1
    ∧ (changesOf [epA0] [epB0]).Create.count epB0 = 1 := by
  have h := plan_partition [epA0] [epB0] (changesOf [epA0] [epB0]) rfl
  exact ⟨h.1 epA0 (by decide) (by decide) (by decide),
         h.2.1 epB0 (by decide) (by decide) (by decide)⟩

/-- Witness for C2. -/
theorem plan_update_correct_witness :
    (changesOf [epUc] [epUd]).UpdateOld.countP (fun e => e.DNSName == epUd.DNSName) = 1
    ∧ (changesOf [epUc] [epUd]).UpdateNew.countP (fun e => e.DNSName == epUd.DNSName) = 1 := by
  have h := plan_update_correct [epUc] [epUd] epUd epUc (changesOf [epUc] [epUd])
      (by decide) (by decide) (by decide) (by decide) (by decide) rfl
  exact h.1.mpr (Or.inl (by decide))

theorem updateMerge_fields (d c : Endpoint) :
    (updateMerge d c).Labels = mergeLabels d.Labels c.Labels
    ∧ (updateMerge d c).RecordType
        = (if targetChanged d c then c.RecordType else d.RecordType)
    ∧ (updateMerge d c).RecordTTL
        = (if shouldUpdateTTL d c then d.RecordTTL else c.RecordTTL) := by
  unfold updateMerge
  cases h1 : targetChanged d c <;> cases h2 : shouldUpdateTTL d c <;> simp

theorem matchStep_eval (cur : List Endpoint) (d c : Endpoint)
    (hre : recordExists d cur = some c) :
    matchStep cur d = if updateCond d c then updateMerge d c else d := by
  unfold matchStep
  simp only [hre, skipCond_eq]
  cases updateCond d c <;> simp

theorem matchStep_none (cur : List Endpoint) (d : Endpoint)
    (h : recordExists d cur = none) : matchStep cur d = d := by
  unfold matchStep
  simp only [h]

/-- C3: in the update branch, the desired record's labels become the merge of
its labels with the current record's labels, its type is overwritten by the
current type exactly when the target changed, its TTL is overwritten by the
current TTL exactly when the TTL should not be updated; the record appended
to `UpdateNew` is this mutated record, and the post-state of the desired
list (the `Desired` field of the returned plan, which in Go aliases the
caller's slice) holds the mutated record wherever `d` was, so the mutation
is visible through every retained reference. -/
theorem plan_update_mutation (cur des : List Endpoint) (d c : Endpoint) (cs : Changes)
    (hnc : (cur.map Endpoint.DNSName).Nodup)
    (hd : d ∈ des) (hc : c ∈ cur) (hn : c.DNSName = d.DNSName)
    (hchg : d.Target ≠ c.Target
        ∨ (TTL.IsConfigured d.RecordTTL = true ∧ d.RecordTTL ≠ c.RecordTTL))
    (hcs : (Plan.Calculate ⟨cur, des, [], none⟩).Changes = some cs) :
    (updateMerge d c).Labels = mergeLabels d.Labels c.Labels
    ∧ (updateMerge d c).RecordType
        = (if targetChanged d c then c.RecordType else d.RecordType)
    ∧ (updateMerge d c).RecordTTL
        = (if shouldUpdateTTL d c then d.RecordTTL else c.RecordTTL)
    ∧ updateMerge d c ∈ cs.UpdateNew
    ∧ (Plan.Calculate ⟨cur, des, [], none⟩).Desired = des.map (matchStep cur)
    ∧ matchStep cur d = updateMerge d c := by
  have hre : recordExists d cur = some c := recordExists_nodup d c cur hnc hc hn
  have ht : updateCond d c = true := (updateCond_iff d c).mpr hchg
  have hcal : (Plan.Calculate ⟨cur, des, [], none⟩).Changes
      = some { (desiredLoop cur des).1 with
               Delete := deleteLoop (desiredLoop cur des).2 cur } := rfl
  rw [hcal] at hcs
  have hcseq := Option.some_inj.mp hcs
  have hUN : cs.UpdateNew = (desiredLoop cur des).1.UpdateNew := by rw [← hcseq]
  refine ⟨(updateMerge_fields d c).1, (updateMerge_fields d c).2.1,
          (updateMerge_fields d c).2.2, ?_, ?_, ?_⟩
  · rw [hUN, desiredLoop_updateNew]
    apply List.mem_filterMap.mpr
    refine ⟨d, hd, ?_⟩
    rw [updNewOf_eval cur d c hre, ht]
    simp
  · show (desiredLoop cur des).2 = des.map (matchStep cur)
    exact desiredLoop_after cur des
  · rw [matchStep_eval cur d c hre, ht]
    simp

/-- Witness for C3. -/
theorem plan_update_mutation_witness :
    (updateMerge epUd epUc).Labels = mergeLabels epUd.Labels epUc.Labels
    ∧ updateMerge epUd epUc ∈ (changesOf [epUc] [epUd]).UpdateNew := by
  have h := plan_update_mutation [epUc] [epUd] epUd epUc (changesOf [epUc] [epUd])
      (by decide) (by decide) (by decide) (by decide) (Or.inl (by decide)) rfl
  exact ⟨h.1, h.2.2.2.1⟩

/-- C4: the planner's lookup of the matching current record compares DNS
names only — two needles with the same name get the same result, whatever
their type, target, TTL or labels — and when several records of the
haystack carry the needle's name, the first one in list order is returned. -/
theorem recordExists_match_rule :
    (∀ needle needle' : Endpoint, ∀ hay : List Endpoint,
        needle.DNSName = needle'.DNSName →
        recordExists needle hay = recordExists needle' hay)
    ∧ (∀ needle r : Endpoint, ∀ pre post : List Endpoint,
        r.DNSName = needle.DNSName →
        (∀ x ∈ pre, x.DNSName ≠ needle.DNSName) →
        recordExists needle (pre ++ r :: post) = some r) :=
  ⟨fun needle needle' hay h => recordExists_name_invariant needle needle' hay h,
   fun needle r pre post h1 h2 => recordExists_first needle r pre post h1 h2⟩

/-- A second record named `u.example.org`, behind `epUc` in list order. -/
def epU2 : Endpoint :=
  { DNSName := "u.example.org", Target := "3.3.3.3", RecordType := "A",
    RecordTTL := none, Labels := [] }

/-- Witness for C4. -/
theorem recordExists_match_rule_witness :
    recordExists epUd [epB0, epUc] = recordExists epU2 [epB0, epUc]
    ∧ recordExists epUd ([epA0] ++ epUc :: [epU2]) = some epUc :=
  ⟨recordExists_match_rule.1 epUd epU2 [epB0, epUc] (by decide),
   recordExists_match_rule.2 epUd epUc [epA0] [epU2] (by decide) (by decide)⟩

/-- C5: `Calculate` applies the configured policies as a left fold, in
order, over the policy-free diff change set, and stores the fold's result as
the change set of the returned plan. -/
theorem plan_policy_fold (pols : List Policy) (cur des : List Endpoint)
    (ch : Option Changes) (cs0 : Changes)
    (hcs0 : (Plan.Calculate ⟨cur, des, [], ch⟩).Changes = some cs0) :
    (Plan.Calculate ⟨cur, des, pols, ch⟩).Changes
      = some (pols.foldl (fun cs pol => pol cs) cs0) := by
  have hcal0 : (Plan.Calculate ⟨cur, des, [], ch⟩).Changes
      = some { (desiredLoop cur des).1 with
               Delete := deleteLoop (desiredLoop cur des).2 cur } := rfl
  rw [hcal0] at hcs0
  have h0 := Option.some_inj.mp hcs0
  have hcal : (Plan.Calculate ⟨cur, des, pols, ch⟩).Changes
      = some (applyPolicies pols { (desiredLoop cur des).1 with
               Delete := deleteLoop (desiredLoop cur des).2 cur }) := rfl
  rw [hcal, h0]
  rfl

/-- The upsert-only policy of the spec: clear the deletions. -/
def polUpsertOnly : Policy := fun cs => { cs with Delete := [] }

/-- Witness for C5. -/
theorem plan_policy_fold_witness :
    (Plan.Calculate ⟨[epA0], [epB0], [polUpsertOnly], none⟩).Changes
      = some ([polUpsertOnly].foldl (fun cs pol => pol cs) (changesOf [epA0] [epB0])) :=
  plan_policy_fold [polUpsertOnly] [epA0] [epB0] none (changesOf [epA0] [epB0]) rfl

theorem updOldOf_none (cur : List Endpoint) (d : Endpoint)
    (h : recordExists d cur = none) : updOldOf cur d = none := by
  unfold updOldOf
  simp only [h]

theorem updNewOf_none (cur : List Endpoint) (d : Endpoint)
    (h : recordExists d cur = none) : updNewOf cur d = none := by
  unfold updNewOf
  simp only [h]

theorem desiredLoop_update_names (cur des : List Endpoint) :
    ((desiredLoop cur des).1.UpdateOld).map Endpoint.DNSName
      = ((desiredLoop cur des).1.UpdateNew).map Endpoint.DNSName := by
  rw [desiredLoop_updateOld, desiredLoop_updateNew]
  induction des with
  | nil => rfl
  | cons d rest ih =>
    rw [List.filterMap_cons, List.filterMap_cons]
    cases hre : recordExists d cur with
    | none =>
      rw [updOldOf_none cur d hre, updNewOf_none cur d hre]
      exact ih
    | some c =>
      rw [updOldOf_eval cur d c hre, updNewOf_eval cur d c hre]
      cases hcond : updateCond d c
      · simpa using ih
      · have hname : (updateMerge d c).DNSName = c.DNSName := by
          rw [updateMerge_DNSName]
          exact (recordExists_eq_some d c cur hre).2.symm
        simp [hname, ih]

/-- C6: with no policies, `UpdateOld` and `UpdateNew` have the same length
and the entries at each index carry the same DNS name (their name lists are
equal). -/
theorem plan_update_names_aligned (cur des : List Endpoint) (cs : Changes)
    (hcs : (Plan.Calculate ⟨cur, des, [], none⟩).Changes = some cs) :
    cs.UpdateOld.length = cs.UpdateNew.length
    ∧ cs.UpdateOld.map Endpoint.DNSName = cs.UpdateNew.map Endpoint.DNSName := by
  have hcal : (Plan.Calculate ⟨cur, des, [], none⟩).Changes
      = some { (desiredLoop cur des).1 with
               Delete := deleteLoop (desiredLoop cur des).2 cur } := rfl
  rw [hcal] at hcs
  have hcseq := Option.some_inj.mp hcs
  have hUO : cs.UpdateOld = (desiredLoop cur des).1.UpdateOld := by rw [← hcseq]
  have hUN : cs.UpdateNew = (desiredLoop cur des).1.UpdateNew := by rw [← hcseq]
  have hnames := desiredLoop_update_names cur des
  constructor
  · have := congrArg List.length hnames
    simpa [hUO, hUN] using this
  · rw [hUO, hUN]
    exact hnames

/-- Witness for C6. -/
theorem plan_update_names_aligned_witness :
    (changesOf [epUc] [epUd]).UpdateOld.length
        = (changesOf [epUc] [epUd]).UpdateNew.length
    ∧ (changesOf [epUc] [epUd]).UpdateOld.map Endpoint.DNSName
        = (changesOf [epUc] [epUd]).UpdateNew.map Endpoint.DNSName :=
  plan_update_names_aligned [epUc] [epUd] (changesOf [epUc] [epUd]) rfl

theorem desiredLoop_all_skip (cur ds : List Endpoint)
    (h : ∀ d ∈ ds, ∃ c, recordExists d cur = some c
          ∧ d.Target = c.Target ∧ d.RecordTTL = c.RecordTTL) :
    desiredLoop cur ds = (⟨[], [], [], []⟩, ds) := by
  induction ds with
  | nil => rfl
  | cons d rest ih =>
    rcases h d (List.mem_cons_self _ _) with ⟨c, hre, hT, hTTL⟩
    have h1 : targetChanged d c = false := by
      unfold targetChanged
      simp [hT]
    have h2 : shouldUpdateTTL d c = false := by
      unfold shouldUpdateTTL
      split
      · rfl
      · simp [hTTL]
    have hskip : (!(targetChanged d c) && !(shouldUpdateTTL d c)) = true := by
      rw [h1, h2]
      rfl
    simp only [desiredLoop, hre, hskip, if_true]
    rw [ih (fun x hx => h x (List.mem_cons_of_mem _ hx))]

theorem deleteLoop_all_found (da cl : List Endpoint)
    (h : ∀ c ∈ cl, (recordExists c da).isSome = true) : deleteLoop da cl = [] := by
  induction cl with
  | nil => rfl
  | cons c rest ih =>
    have hc := h c (List.mem_cons_self _ _)
    cases hre : recordExists c da with
    | none => rw [hre] at hc; simp at hc
    | some x =>
      simp only [deleteLoop, hre]
      exact ih (fun y hy => h y (List.mem_cons_of_mem _ hy))

/-- C7: if every desired name occurs in current and vice versa, and records
with equal names have identical targets and TTLs, then `Calculate` (with no
policies) produces a change set whose four lists are all empty. -/
theorem plan_idempotent (cur des : List Endpoint) (cs : Changes)
    (h1 : ∀ d ∈ des, ∃ c ∈ cur, c.DNSName = d.DNSName)
    (h2 : ∀ c ∈ cur, ∃ d ∈ des, d.DNSName = c.DNSName)
    (h3 : ∀ d ∈ des, ∀ c ∈ cur, d.DNSName = c.DNSName →
            d.Target = c.Target ∧ d.RecordTTL = c.RecordTTL)
    (hcs : (Plan.Calculate ⟨cur, des, [], none⟩).Changes = some cs) :
    cs.Create = [] ∧ cs.UpdateOld = [] ∧ cs.UpdateNew = [] ∧ cs.Delete = [] := by
  have hloop : desiredLoop cur des = (⟨[], [], [], []⟩, des) := by
    apply desiredLoop_all_skip
    intro d hd
    rcases h1 d hd with ⟨c0, hc0, hn0⟩
    have hsome := recordExists_isSome_of_mem d c0 cur hc0 hn0
    cases hre : recordExists d cur with
    | none => rw [hre] at hsome; simp at hsome
    | some c' =>
      rcases recordExists_eq_some d c' cur hre with ⟨hcm, hcn⟩
      rcases h3 d hd c' hcm hcn.symm with ⟨hT, hTTL⟩
      exact ⟨c', rfl, hT, hTTL⟩
  have hdel : deleteLoop (desiredLoop cur des).2 cur = [] := by
    rw [hloop]
    apply deleteLoop_all_found
    intro c hcmem
    rcases h2 c hcmem with ⟨d, hdm, hdn⟩
    exact recordExists_isSome_of_mem c d des hdm hdn
  have hcal : (Plan.Calculate ⟨cur, des, [], none⟩).Changes
      = some { (desiredLoop cur des).1 with
               Delete := deleteLoop (desiredLoop cur des).2 cur } := rfl
  rw [hcal] at hcs
  have hcseq := Option.some_inj.mp hcs
  refine ⟨?_, ?_, ?_, ?_⟩
  · rw [← hcseq]
    show (desiredLoop cur des).1.Create = []
    rw [hloop]
  · rw [← hcseq]
    show (desiredLoop cur des).1.UpdateOld = []
    rw [hloop]
  · rw [← hcseq]
    show (desiredLoop cur des).1.UpdateNew = []
    rw [hloop]
  · rw [← hcseq]
    show deleteLoop (desiredLoop cur des).2 cur = []
    exact hdel

/-- The current-side twin of `epUd`: same name, target and TTL, but carrying
an ownership label. -/
def epIc : Endpoint :=
  { DNSName := "u.example.org", Target := "1.1.1.1", RecordType := "A",
    RecordTTL := none, Labels := [("owner", "x")] }

/-- Witness for C7. -/
theorem plan_idempotent_witness :
    (changesOf [epIc] [epUd]).Create = []
    ∧ (changesOf [epIc] [epUd]).UpdateOld = []
    ∧ (changesOf [epIc] [epUd]).UpdateNew = []
    ∧ (changesOf [epIc] [epUd]).Delete = [] :=
  plan_idempotent [epIc] [epUd] (changesOf [epIc] [epUd])
    (by decide) (by decide) (by decide) rfl

/-- C10: with no policies, the `Create` entries are the unmatched desired
records themselves, unmodified and in input order (a sublist of the input);
the `Delete` entries are unmodified current records (a sublist of the
input); the returned plan carries the caller's current list, the desired
list's post-state (the same slice in Go), and an empty `Policies` field;
only desired records that take the update branch are mutated (`matchStep` is
the identity on the others); and the result does not depend on the receiver
plan's `Changes` field, which `Calculate` never writes. -/
theorem plan_frame (cur des : List Endpoint) (ch : Option Changes) (cs : Changes)
    (hcs : (Plan.Calculate ⟨cur, des, [], ch⟩).Changes = some cs) :
    cs.Create = des.filter (fun d => (recordExists d cur).isNone)
    ∧ cs.Create.Sublist des
    ∧ cs.Delete.Sublist cur
    ∧ (Plan.Calculate ⟨cur, des, [], ch⟩).Current = cur
    ∧ (Plan.Calculate ⟨cur, des, [], ch⟩).Policies = []
    ∧ (Plan.Calculate ⟨cur, des, [], ch⟩).Desired = des.map (matchStep cur)
    ∧ (∀ d ∈ des, updNewOf cur d = none → matchStep cur d = d)
    ∧ (∀ ch' : Option Changes,
        Plan.Calculate ⟨cur, des, [], ch'⟩ = Plan.Calculate ⟨cur, des, [], ch⟩) := by
  have hcal : (Plan.Calculate ⟨cur, des, [], ch⟩).Changes
      = some { (desiredLoop cur des).1 with
               Delete := deleteLoop (desiredLoop cur des).2 cur } := rfl
  rw [hcal] at hcs
  have hcseq := Option.some_inj.mp hcs
  have hCre : cs.Create = (desiredLoop cur des).1.Create := by rw [← hcseq]
  have hDel : cs.Delete = deleteLoop (desiredLoop cur des).2 cur := by rw [← hcseq]
  refine ⟨?_, ?_, ?_, rfl, rfl, ?_, ?_, fun ch' => rfl⟩
  · rw [hCre, desiredLoop_create]
  · rw [hCre, desiredLoop_create]
    exact List.filter_sublist des
  · rw [hDel, deleteLoop_eq_filter]
    exact List.filter_sublist cur
  · show (desiredLoop cur des).2 = des.map (matchStep cur)
    exact desiredLoop_after cur des
  · intro d _ hnone
    cases hre : recordExists d cur with
    | none => exact matchStep_none cur d hre
    | some c =>
      rw [updNewOf_eval cur d c hre] at hnone
      cases hcond : updateCond d c
      · rw [matchStep_eval cur d c hre, hcond]
        simp
      · rw [hcond] at hnone
        simp at hnone

/-- Witness for C10. -/
theorem plan_frame_witness :
    (changesOf [epA0] [epB0]).Create = [epB0].filter (fun d => (recordExists d [epA0]).isNone)
    ∧ (Plan.Calculate ⟨[epA0], [epB0], [], none⟩).Current = [epA0] := by
  have h := plan_frame [epA0] [epB0] none (changesOf [epA0] [epB0]) rfl
  exact ⟨h.1, h.2.2.2.1⟩

/-- Modelled from the spec: the filter implementation (`filterSource`) is
not under `src/`, only its tests are.  Split a DNS name at its first dot:
the first label and the remainder; `none` when the name has no dot. -/
def splitFirstLabel (name : List Char) : Option (List Char × List Char) :=
  match name with
  | [] => none
  | ch :: rest =>
    if ch = '.' then some ([], rest)
    else
      match splitFirstLabel rest with
      | some (l, r) => some (ch :: l, r)
      | none => none

/-- Modelled from the spec: a name matches the single-level wildcard pattern
`*.suffix` iff the part before its first dot is exactly one nonempty label,
the part after is exactly `suffix`, and the name is not the literal pattern
string itself (first label `*`). -/
def matchesWildcard (suffix name : List Char) : Bool :=
  match splitFirstLabel name with
  | some (l, r) => (r == suffix) && (l != ['*']) && (l != [])
  | none => false

/-- Modelled from the spec: an ignore pattern is either a single-level
wildcard `*.suffix` or a literal name (dropped on exact match). -/
def matchesIgnore (pattern name : List Char) : Bool :=
  match pattern with
  | '*' :: '.' :: suffix => matchesWildcard suffix name
  | _ => name == pattern

/-- Modelled from the spec: a name is excluded when any configured ignore
pattern matches it. -/
def dnsIgnored (patterns : List String) (name : String) : Bool :=
  patterns.any (fun p => matchesIgnore p.data name.data)

/-- Modelled from the spec: the DNS-name exclusion filter keeps exactly the
records no ignore pattern matches. -/
def filterDNSNames (patterns : List String) (eps : List Endpoint) : List Endpoint :=
  eps.filter (fun e => !(dnsIgnored patterns e.DNSName))

theorem splitFirstLabel_append (lab rest : List Char) (h : '.' ∉ lab) :
    splitFirstLabel (lab ++ '.' :: rest) = some (lab, rest) := by
  induction lab with
  | nil => rfl
  | cons ch l ih =>
    have hch : ¬(ch = '.') := fun he => h (he ▸ List.mem_cons_self _ _)
    have hl : '.' ∉ l := fun hm => h (List.mem_cons_of_mem _ hm)
    show splitFirstLabel (ch :: (l ++ '.' :: rest)) = some (ch :: l, rest)
    unfold splitFirstLabel
    rw [if_neg hch, ih hl]

theorem splitFirstLabel_suffix_length (xs ys : List Char) (l r : List Char)
    (h : splitFirstLabel (xs ++ '.' :: ys) = some (l, r)) :
    ys.length ≤ r.length := by
  induction xs generalizing l r with
  | nil =>
    have hsome : some (([] : List Char), ys) = some (l, r) := h
    have hsnd : ys = r := congrArg Prod.snd (Option.some_inj.mp hsome)
    rw [← hsnd]
  | cons ch xs ih =>
    by_cases hch : ch = '.'
    · subst hch
      have hsome : some (([] : List Char), xs ++ '.' :: ys) = some (l, r) := h
      have hsnd : xs ++ '.' :: ys = r := congrArg Prod.snd (Option.some_inj.mp hsome)
      rw [← hsnd]
      simp only [List.length_append, List.length_cons]
      omega
    · cases hin : splitFirstLabel (xs ++ '.' :: ys) with
      | none =>
        have hval : splitFirstLabel ((ch :: xs) ++ '.' :: ys) = none := by
          simp [splitFirstLabel, hch, hin]
        rw [hval] at h
        exact absurd h (by simp)
      | some p =>
        cases p with
        | mk pl pr =>
          have hval : splitFirstLabel ((ch :: xs) ++ '.' :: ys) = some (ch :: pl, pr) := by
            simp [splitFirstLabel, hch, hin]
          rw [hval] at h
          have hsnd : pr = r := congrArg Prod.snd (Option.some_inj.mp h)
          rw [← hsnd]
          exact ih pl pr hin

theorem matchesWildcard_eval (suffix l r nm : List Char)
    (h : splitFirstLabel nm = some (l, r)) :
    matchesWildcard suffix nm = ((r == suffix) && (l != ['*']) && (l != [])) := by
  unfold matchesWildcard
  simp only [h]

theorem matchesWildcard_noDot (suffix nm : List Char)
    (h : splitFirstLabel nm = none) : matchesWildcard suffix nm = false := by
  unfold matchesWildcard
  simp only [h]

theorem dnsIgnored_single_wildcard (suffix nm : List Char) :
    dnsIgnored [String.mk ('*' :: '.' :: suffix)] (String.mk nm)
      = matchesWildcard suffix nm := by
  show (matchesWildcard suffix nm || false) = matchesWildcard suffix nm
  exact Bool.or_false _

/-- C8 (spec-modelled): for a single-level wildcard ignore pattern
`*.suffix`, the DNS-name exclusion filter drops a name made of exactly one
label followed by `.suffix`, keeps a name with two or more labels before the
suffix, and keeps the name that is literally the pattern string itself; a
record survives the filter exactly when no configured pattern matches its
name. -/
theorem dns_wildcard_filter (suffix lab lab2 : List Char)
    (h1 : '.' ∉ lab) (h2 : lab ≠ []) (h3 : lab ≠ ['*']) :
    dnsIgnored [String.mk ('*' :: '.' :: suffix)]
        (String.mk (lab ++ '.' :: suffix)) = true
    ∧ dnsIgnored [String.mk ('*' :: '.' :: suffix)]
        (String.mk (lab2 ++ '.' :: (lab ++ '.' :: suffix))) = false
    ∧ dnsIgnored [String.mk ('*' :: '.' :: suffix)]
        (String.mk ('*' :: '.' :: suffix)) = false
    ∧ (∀ eps : List Endpoint, ∀ e ∈ eps,
        (e ∈ filterDNSNames [String.mk ('*' :: '.' :: suffix)] eps
          ↔ dnsIgnored [String.mk ('*' :: '.' :: suffix)] e.DNSName = false)) := by
  refine ⟨?_, ?_, ?_, ?_⟩
  · rw [dnsIgnored_single_wildcard]
    rw [matchesWildcard_eval suffix lab suffix _ (splitFirstLabel_append lab suffix h1)]
    simp [bne_iff_ne, h2, h3]
  · rw [dnsIgnored_single_wildcard]
    cases hsp : splitFirstLabel (lab2 ++ '.' :: (lab ++ '.' :: suffix)) with
    | none => exact matchesWildcard_noDot _ _ hsp
    | some p =>
      cases p with
      | mk pl pr =>
        rw [matchesWildcard_eval suffix pl pr _ hsp]
        have hlen : (lab ++ '.' :: suffix).length ≤ pr.length :=
          splitFirstLabel_suffix_length lab2 (lab ++ '.' :: suffix) pl pr hsp
        have hne : (pr == suffix) = false := by
          apply beq_eq_false_iff_ne.mpr
          intro he
          rw [he] at hlen
          simp only [List.length_append, List.length_cons] at hlen
          omega
        rw [hne]
        rfl
  · rw [dnsIgnored_single_wildcard]
    have hsp : splitFirstLabel ('*' :: '.' :: suffix) = some (['*'], suffix) := rfl
    rw [matchesWildcard_eval suffix ['*'] suffix _ hsp]
    simp
  · intro eps e he
    constructor
    · intro hm
      have hb := (List.mem_filter.mp hm).2
      simpa using hb
    · intro hf
      refine List.mem_filter.mpr ⟨he, ?_⟩
      rw [hf]
      rfl

/-- Witness for C8. -/
theorem dns_wildcard_filter_witness :
    dnsIgnored [String.mk ('*' :: '.' :: ("example.com").data)]
        (String.mk (("foo").data ++ '.' :: ("example.com").data)) = true
    ∧ dnsIgnored [String.mk ('*' :: '.' :: ("example.com").data)]
        (String.mk (("bar").data ++ '.' :: (("foo").data ++ '.' :: ("example.com").data))) = false
    ∧ dnsIgnored [String.mk ('*' :: '.' :: ("example.com").data)]
        (String.mk ('*' :: '.' :: ("example.com").data)) = false := by
  have h := dns_wildcard_filter ("example.com").data ("foo").data ("bar").data
      (by decide) (by decide) (by decide)
  exact ⟨h.1, h.2.1, h.2.2.1⟩

/-- Modelled from the spec: parse one decimal octet (nonempty, digits only,
value at most 255). -/
def parseOctet (s : List Char) : Option Nat :=
  if s = [] then none
  else if s.all (fun ch => ch.isDigit) then
    let v := s.foldl (fun acc ch => acc * 10 + (ch.toNat - 48)) 0
    if v ≤ 255 then some v else none
  else none

/-- Modelled from the spec: split a character list on dots. -/
def splitOnDot (cs : List Char) : List (List Char) :=
  match cs with
  | [] => [[]]
  | ch :: rest =>
    if ch = '.' then [] :: splitOnDot rest
    else
      match splitOnDot rest with
      | h :: t => (ch :: h) :: t
      | [] => [[ch]]

/-- Modelled from the spec: parse a dotted-quad IPv4 literal into its
32-bit value; `none` when the target is not an IP literal. -/
def parseIPv4 (s : String) : Option Nat :=
  match (splitOnDot s.data).map parseOctet with
  | [some a, some b, some c, some d] =>
      some (((a * 256 + b) * 256 + c) * 256 + d)
  | _ => none

/-- Modelled from the spec: an excluded network, an address plus a prefix
length (CIDR). -/
structure IPNet where
  addr : Nat
  maskBits : Nat
  deriving DecidableEq

/-- Modelled from the spec: an address lies in a network when both agree on
the network prefix (the high `maskBits` bits). -/
def ipInNet (ip : Nat) (net : IPNet) : Bool :=
  ip / 2 ^ (32 - net.maskBits) == net.addr / 2 ^ (32 - net.maskBits)

/-- Modelled from the spec: the CIDR exclusion predicate — only records of
type A whose target parses as an IP literal lying inside some configured
excluded network are excluded; parse failure keeps the record (fail-open). -/
def cidrExcluded (nets : List IPNet) (e : Endpoint) : Bool :=
  if e.RecordType == "A" then
    match parseIPv4 e.Target with
    | some ip => nets.any (fun net => ipInNet ip net)
    | none => false
  else false

/-- Modelled from the spec: the CIDR exclusion filter of the pipeline. -/
def filterCidr (nets : List IPNet) (eps : List Endpoint) : List Endpoint :=
  eps.filter (fun e => !(cidrExcluded nets e))

theorem cidrExcluded_iff (nets : List IPNet) (e : Endpoint) :
    cidrExcluded nets e = true ↔
      (e.RecordType = "A"
        ∧ ∃ ip : Nat, parseIPv4 e.Target = some ip
            ∧ nets.any (fun net => ipInNet ip net) = true) := by
  unfold cidrExcluded
  by_cases hA : (e.RecordType == "A") = true
  · have hA' : e.RecordType = "A" := by simpa using hA
    rw [if_pos hA]
    cases hp : parseIPv4 e.Target with
    | none => simp [hA']
    | some ip => simp [hA', hp]
  · have hA' : ¬(e.RecordType = "A") := by simpa using hA
    rw [if_neg hA]
    simp [hA']

/-- C9 (spec-modelled): the CIDR exclusion filter drops a record iff its
type is A, its target parses as an IP literal, and that IP lies inside a
configured excluded network; a type-A record whose target does not parse is
retained (fail-open), and a record of any other type is never dropped by
this rule. -/
theorem cidr_filter_rule (nets : List IPNet) (eps : List Endpoint) (e : Endpoint)
    (he : e ∈ eps) :
    ((e ∉ filterCidr nets eps)
      ↔ (e.RecordType = "A"
          ∧ ∃ ip : Nat, parseIPv4 e.Target = some ip
              ∧ nets.any (fun net => ipInNet ip net) = true))
    ∧ (e.RecordType = "A" → parseIPv4 e.Target = none → e ∈ filterCidr nets eps)
    ∧ (e.RecordType ≠ "A" → e ∈ filterCidr nets eps) := by
  have hmem : ∀ hb : cidrExcluded nets e = false, e ∈ filterCidr nets eps := by
    intro hb
    refine List.mem_filter.mpr ⟨he, ?_⟩
    rw [hb]
    rfl
  refine ⟨⟨?_, ?_⟩, ?_, ?_⟩
  · intro hnot
    apply (cidrExcluded_iff nets e).mp
    cases hb : cidrExcluded nets e
    · exact absurd (hmem hb) hnot
    · rfl
  · intro hex hmem2
    have hb := (List.mem_filter.mp hmem2).2
    rw [(cidrExcluded_iff nets e).mpr hex] at hb
    exact absurd hb (by simp)
  · intro hA hp
    apply hmem
    unfold cidrExcluded
    split
    · rw [hp]
    · rfl
  · intro hA
    apply hmem
    unfold cidrExcluded
    split
    · rename_i hba
      exact absurd (by simpa using hba) hA
    · rfl

/-- The excluded test network 192.168.100.0/24 of the source tests. -/
def netTest : IPNet := { addr := 3232261120, maskBits := 24 }

/-- Test record dropped by the CIDR filter (A record inside the range). -/
def epCidrA : Endpoint :=
  { DNSName := "foo.example.org", Target := "192.168.100.10", RecordType := "A",
    RecordTTL := none, Labels := [] }

/-- Test record kept by the CIDR filter (A record outside the range). -/
def epCidrK : Endpoint :=
  { DNSName := "foo.example.org", Target := "1.2.3.4", RecordType := "A",
    RecordTTL := none, Labels := [] }

/-- Test record kept by the CIDR filter (CNAME record inside the range). -/
def epCidrC : Endpoint :=
  { DNSName := "foo.example.org", Target := "192.168.100.10", RecordType := "CNAME",
    RecordTTL := none, Labels := [] }

/-- Witness for C9. -/
theorem cidr_filter_rule_witness :
    epCidrA ∉ filterCidr [netTest] [epCidrK, epCidrA, epCidrC]
    ∧ epCidrC ∈ filterCidr [netTest] [epCidrK, epCidrA, epCidrC] := by
  have ha := cidr_filter_rule [netTest] [epCidrK, epCidrA, epCidrC] epCidrA (by decide)
  have hc := cidr_filter_rule [netTest] [epCidrK, epCidrA, epCidrC] epCidrC (by decide)
  refine ⟨ha.1.mpr ⟨rfl, 3232261130, by decide, by decide⟩, hc.2.2 (by decide)⟩
